import Mathlib

/-!
Verification development for the InsightGPT retrieval-augmented QA core.

The Python sources are shallowly embedded: strings are `List Char`,
Python `int` is `Int`, Python `float` thresholds that only ever hold
rationals are `ℚ`, fallible calls return `Option`, and the `while`
loop of the chunker — whose source can fail to terminate — is
fuel-indexed.  External collaborators (the embedding provider, the
tokenizer) are parameters, exactly as the spec treats them.
-/

/-- Python whitespace: the character set stripped by `str.strip()` and
split on by `str.split()`. -/
def isPySpace (c : Char) : Bool :=
  c = ' ' || c = '\t' || c = '\n' || c = '\r' || c = '\x0b' || c = '\x0c'

/-- Python `s.strip()`. -/
def pyStrip (s : List Char) : List Char :=
  ((s.dropWhile isPySpace).reverse.dropWhile isPySpace).reverse

/-- Python `s.lower()` (ASCII fragment; every comparison in the source is ASCII). -/
def pyLower (s : List Char) : List Char := s.map Char.toLower

/-- Python slice `s[i:j]`, including negative-index and clamping semantics. -/
def pySlice {α : Type} (s : List α) (i j : Int) : List α :=
  let n : Int := s.length
  let i' : Int := if i < 0 then max (n + i) 0 else min i n
  let j' : Int := if j < 0 then max (n + j) 0 else min j n
  (s.take j'.toNat).drop i'.toNat

/-- Python `s[i]` indexing: negative indices count from the end; an
out-of-range access raises, modelled as `none`. -/
def pyGet {α : Type} (s : List α) (i : Int) : Option α :=
  if 0 ≤ i then s.get? i.toNat
  else if 0 ≤ (s.length : Int) + i then s.get? ((s.length : Int) + i).toNat
  else none

/-- Python `hay.rfind(needle)`: the highest index at which `needle`
occurs in `hay`, or `-1` when it does not occur. -/
def pyRfind (needle hay : List Char) : Int :=
  match ((List.range (hay.length + 1)).filter
      (fun i => needle.isPrefixOf (hay.drop i))).getLast? with
  | some i => (i : Int)
  | none => -1

/-- Python `needle in hay` substring containment. -/
def pyContains (hay needle : List Char) : Bool :=
  (List.range (hay.length + 1)).any (fun i => needle.isPrefixOf (hay.drop i))

/-- Python `x or d` applied to an optional integer argument:
`None` and `0` are falsy and give the default. -/
def pyOrInt (x : Option Int) (d : Int) : Int :=
  match x with
  | none => d
  | some v => if v = 0 then d else v

/-! ## DocumentProcessor.chunk_text (src/utils/document_processor.py) -/

/-- The sentence-terminal markers tried by `chunk_text`, in source order. -/
def sentencePuncts : List (List Char) :=
  [". ".data, ".\n".data, "! ".data, "!\n".data, "? ".data, "?\n".data]

/-- The `for punct in [...]` scan inside `chunk_text`: the first marker in
list order whose last occurrence in the current window lies strictly past
half the chunk size, together with that occurrence.  The source compares
`last_punct > chunk_size * 0.5`; both sides being integer-valued (and the
float product exact), this is `2 * last_punct > chunk_size`. -/
def findPunctCut (window : List Char) (chunk_size : Int) : Option (Int × List Char) :=
  sentencePuncts.findSome? (fun p =>
    let last_punct := pyRfind p window
    if 2 * last_punct > chunk_size then some (last_punct, p) else none)

/-- The end offset chosen for the window starting at `start`: the raw
offset `start + chunk_size`, moved back to just after a qualifying
sentence marker when the raw end lies strictly inside the text. -/
def chunkEnd (text : List Char) (start chunk_size : Int) : Int :=
  let e := start + chunk_size
  if e < (text.length : Int) then
    match findPunctCut (pySlice text start e) chunk_size with
    | some ip => start + ip.1 + (ip.2.length : Int)
    | none => e
  else e

/-- The `while start < len(text)` loop of `chunk_text`, fuel-indexed
because the source loop need not terminate; `none` means the fuel ran
out with the loop still running. -/
def chunk_textLoop (fuel : Nat) (text : List Char) (chunk_size overlap : Int)
    (start : Int) : Option (List (List Char)) :=
  match fuel with
  | 0 => if start < (text.length : Int) then none else some []
  | fuel + 1 =>
    if start < (text.length : Int) then
      let e := chunkEnd text start chunk_size
      let chunk := pyStrip (pySlice text start e)
      (chunk_textLoop fuel text chunk_size overlap (e - overlap)).map
        (fun rest => if chunk = [] then rest else chunk :: rest)
    else some []

/-- Source `DocumentProcessor.chunk_text`.  The `chunk_size or self.config.CHUNK_SIZE`
and `overlap or self.config.CHUNK_OVERLAP` defaults (1000 and 200) are the
Python `or`, so an explicit `0` is replaced by the default.  A text no longer
than the chunk size is returned as a single-element list, verbatim. -/
def chunk_text (fuel : Nat) (text : List Char) (chunk_size overlap : Option Int) :
    Option (List (List Char)) :=
  let cs := pyOrInt chunk_size 1000
  let ov := pyOrInt overlap 200
  if (text.length : Int) ≤ cs then some [text]
  else chunk_textLoop fuel text cs ov 0

/-! ## OpenAIHelper (src/utils/openai_helper.py) -/

/-- The tokenizer obtained from tiktoken — an external collaborator,
taken as a parameter: encode to token ids, decode back to text. -/
structure Encoding where
  encode : List Char → List Nat
  decode : List Nat → List Char

/-- Source `OpenAIHelper.count_tokens`. -/
def count_tokens (enc : Encoding) (text : List Char) : Nat :=
  (enc.encode text).length

/-- The model-specific token ceiling inside `generate_summary`:
`8000 if self.model == "gpt-4" else 3000`. -/
def summaryMaxTokens (model : List Char) : Nat :=
  if model = "gpt-4".data then 8000 else 3000

/-- The token-budget guard of `generate_summary`: the document text sent
onward into the prompt — unchanged when within budget, else the decode
of the first `max_tokens` tokens of the encoding. -/
def generate_summary_text (enc : Encoding) (model : List Char)
    (text : List Char) : List Char :=
  let token_count := count_tokens enc text
  let max_tokens := summaryMaxTokens model
  if token_count > max_tokens then enc.decode ((enc.encode text).take max_tokens)
  else text

/-- A chat message: role and content. -/
structure Msg where
  role : List Char
  content : List Char
deriving DecidableEq

/-- The system message of `answer_question`. -/
def qaSystemMsg : Msg :=
  ⟨"system".data,
    ("You are an intelligent assistant helping users understand documents. \n                \nYour task is to answer questions based on the provided document context. \n\nGuidelines:\n- Answer based ONLY on the information in the provided context\n- If the answer is not in the context, say \"I cannot find that information in the document\"\n- Be clear, concise, and helpful\n- Cite specific parts of the document when relevant\n- If the question is ambiguous, ask for clarification").data⟩

/-- The final user message of `answer_question`: the retrieved chunks
joined with the literal separator, then the question. -/
def qaUserMsg (question : List Char) (context_chunks : List (List Char)) : Msg :=
  ⟨"user".data,
    "Context from document:\n".data ++
      List.intercalate "\n\n---\n\n".data context_chunks ++
      "\n\nQuestion: ".data ++ question⟩

/-- The message sequence `answer_question` sends to the generation
provider: the system message, then `chat_history[-4:]`, then the user
message.  An absent (`None`) history and an empty one both contribute
nothing, so a plain list models the optional argument. -/
def answer_question_messages (question : List Char)
    (context_chunks : List (List Char)) (chat_history : List Msg) : List Msg :=
  [qaSystemMsg] ++ pySlice chat_history (-4) (chat_history.length : Int) ++
    [qaUserMsg question context_chunks]

/-- Section tags of `_parse_insights`. -/
inductive InsightSection where
  | entities | themes | action_items
deriving DecidableEq

/-- The insights mapping: the dict built by `_parse_insights` has exactly
these three keys, so it is a record with three list fields. -/
structure Insights where
  entities : List (List Char)
  themes : List (List Char)
  action_items : List (List Char)
deriving DecidableEq

/-- Source `insights[current_section].append(item)`. -/
def Insights.add (r : Insights) (s : InsightSection) (item : List Char) : Insights :=
  match s with
  | .entities => { r with entities := r.entities ++ [item] }
  | .themes => { r with themes := r.themes ++ [item] }
  | .action_items => { r with action_items := r.action_items ++ [item] }

/-- The line loop of `_parse_insights`: recognised headers switch the
current section; `- ` lines contribute their stripped remainder when a
section is current, the item is non-empty, and it is not (case
insensitively) `none identified`. -/
def parse_insightsLoop :
    List (List Char) → Option InsightSection → Insights → Insights
  | [], _, acc => acc
  | l :: rest, sec, acc =>
    let line := pyStrip l
    if pyContains line "KEY ENTITIES:".data then
      parse_insightsLoop rest (some .entities) acc
    else if pyContains line "MAIN THEMES:".data then
      parse_insightsLoop rest (some .themes) acc
    else if pyContains line "ACTION ITEMS:".data then
      parse_insightsLoop rest (some .action_items) acc
    else
      match sec with
      | some s =>
        if "- ".data.isPrefixOf line then
          let item := pyStrip (pySlice line 2 (line.length : Int))
          if item ≠ [] ∧ pyLower item ≠ "none identified".data then
            parse_insightsLoop rest sec (acc.add s item)
          else parse_insightsLoop rest sec acc
        else parse_insightsLoop rest sec acc
      | none => parse_insightsLoop rest sec acc

/-- Source `OpenAIHelper._parse_insights`. -/
def _parse_insights (content : List Char) : Insights :=
  parse_insightsLoop (content.splitOn '\n') none ⟨[], [], []⟩

/-! ## EmbeddingStore (src/utils/embeddings.py) -/

/-- Inner product, the similarity computed by `faiss.IndexFlatIP`.
Components are rationals: `faiss.normalize_L2` involves a real square
root, so normalisation is folded into the abstract embedding provider;
none of the verified claims depends on the score values. -/
def dotQ (a b : List ℚ) : ℚ := (List.zipWith (· * ·) a b).sum

/-- The `faiss.IndexFlatIP` object: the constructor dimension and the
vectors added to it. -/
structure FaissIndex where
  dim : Nat
  vecs : List (List ℚ)

/-- Ranking of exact inner-product search: higher score first, ties by
lower position, which makes the result deterministic. -/
def faissRank (a b : Int × ℚ) : Prop :=
  b.2 < a.2 ∨ (a.2 = b.2 ∧ a.1 ≤ b.1)

instance : DecidableRel faissRank := fun _ _ => instDecidableOr

/-- Source `index.search(q, k)` on `IndexFlatIP`: rank every stored vector by
inner product with the query, return the best `k` (position, score)
pairs, padding with position `-1` when `k` exceeds the number of
stored vectors (FAISS fills missing neighbours with id `-1`). -/
def FaissIndex.search (idx : FaissIndex) (q : List ℚ) (k : Nat) :
    List (Int × ℚ) :=
  let scored := (List.range idx.vecs.length).map
    (fun i => (Int.ofNat i, dotQ (idx.vecs.getD i []) q))
  let ranked := List.insertionSort faissRank scored
  ranked.take k ++ List.replicate (k - ranked.length) (-1, 0)

/-- The state of an `EmbeddingStore`: the retained chunk list and the
FAISS index, absent until a build has completed. -/
structure EmbeddingStore where
  chunks : List (List Char)
  index : Option FaissIndex

/-- Source `_get_embeddings_batch` delegates to the external embedding
provider; a raised exception is `none`. -/
abbrev BatchProvider := List (List Char) → Option (List (List ℚ))

/-- The batch loop of `create_embeddings`: slices of 10 chunks in order,
aborting on the first provider failure. -/
def embedBatches (provider : BatchProvider) (l : List (List Char)) :
    Option (List (List ℚ)) :=
  if h : l = [] then some []
  else
    match provider (l.take 10) with
    | none => none
    | some vs => (embedBatches provider (l.drop 10)).map (fun rest => vs ++ rest)
termination_by l.length
decreasing_by
  simp only [List.length_drop]
  have hp := List.length_pos.mpr h
  omega

/-- Source `EmbeddingStore.create_embeddings`, mirroring the source order of
effects: `self.chunks` is assigned before any embedding is attempted; a
batch failure returns `False`, leaving that assignment and any previous
index in place; on success a fresh `IndexFlatIP(1536)` holding all the
vectors replaces the previous index.  Progress-bar calls are
presentation only and are not modelled. -/
def EmbeddingStore.create_embeddings (provider : BatchProvider)
    (st : EmbeddingStore) (text_chunks : List (List Char)) :
    Bool × EmbeddingStore :=
  if text_chunks = [] then (false, st)
  else
    let st1 : EmbeddingStore := { st with chunks := text_chunks }
    match embedBatches provider text_chunks with
    | none => (false, st1)
    | some vecs => (true, { chunks := text_chunks, index := some ⟨1536, vecs⟩ })

/-- Source `EmbeddingStore.is_ready`: `self.index is not None and len(self.chunks) > 0`. -/
def EmbeddingStore.is_ready (st : EmbeddingStore) : Bool :=
  st.index.isSome && decide (0 < st.chunks.length)

/-- The result-assembly loop of `search`: keep hits with
`idx < len(self.chunks)` and read `self.chunks[idx]` with Python
indexing; an out-of-range read raises, collapsing the whole call. -/
def searchResults (hits : List (Int × ℚ)) (chunks : List (List Char)) :
    Option (List (List Char × ℚ)) :=
  match hits with
  | [] => some []
  | (i, d) :: rest =>
    if i < (chunks.length : Int) then
      match pyGet chunks i with
      | none => none
      | some c => (searchResults rest chunks).map (fun rs => (c, d) :: rs)
    else searchResults rest chunks

/-- Source `EmbeddingStore.search`.  The not-ready guard comes first; `top_k`
defaults through Python `or` to `Config.TOP_K_RESULTS = 3` and is then
clamped to the chunk count.  The query embedding (with its
normalisation) is the abstract `embed` parameter; any raised exception
lands in the source's `except` branch, which returns `[]`. -/
def EmbeddingStore.search (embed : List Char → Option (List ℚ))
    (st : EmbeddingStore) (query : List Char) (top_k : Option Int) :
    List (List Char × ℚ) :=
  match st.index with
  | none => []
  | some idx =>
    if st.chunks = [] then []
    else
      let k0 := pyOrInt top_k 3
      let k := min k0 (st.chunks.length : Int)
      match embed query with
      | none => []
      | some qv =>
        match searchResults (idx.search qv k.toNat) st.chunks with
        | none => []
        | some rs => rs

/-- Python `s.split()`: split on whitespace runs, discarding empties. -/
def pySplitWs (s : List Char) : List (List Char) :=
  (s.splitOnP isPySpace).filter (· ≠ [])

/-- The normalised form `merge_overlapping_chunks` compares:
`' '.join(chunk.lower().split())`. -/
def normalizeChunk (c : List Char) : List Char :=
  List.intercalate " ".data (pySplitWs (pyLower c))

/-- The duplicate test of `merge_overlapping_chunks`: word-set Jaccard
overlap strictly above the threshold (with a positive union). -/
def isDuplicatePair (normalized seen_chunk : List Char) (threshold : ℚ) : Bool :=
  let a := (pySplitWs normalized).toFinset
  let b := (pySplitWs seen_chunk).toFinset
  let overlap := (a ∩ b).card
  let total := (a ∪ b).card
  0 < total && threshold < (overlap : ℚ) / (total : ℚ)

/-- The main loop of `merge_overlapping_chunks`: keep a chunk when its
normalised form is not a near-duplicate of any previously kept one.
`seen` is a Python set only queried through an existential, so a list
of the values added models it. -/
def mergeLoop (threshold : ℚ) :
    List (List Char) → List (List Char) → List (List Char)
  | [], _ => []
  | c :: rest, seen =>
    let normalized := normalizeChunk c
    if seen.any (fun s => isDuplicatePair normalized s threshold) then
      mergeLoop threshold rest seen
    else c :: mergeLoop threshold rest (seen ++ [normalized])

/-- Source `merge_overlapping_chunks` (source default threshold 0.8). -/
def merge_overlapping_chunks (chunks : List (List Char))
    (similarity_threshold : ℚ) : List (List Char) :=
  if chunks.length ≤ 1 then chunks
  else mergeLoop similarity_threshold chunks []

/-! ## Helper lemmas -/

/-- The Python slice `l[-4:]` is `List.drop (length - 4)`. -/
theorem pySlice_last_four {α : Type} (l : List α) :
    pySlice l (-4) (l.length : Int) = l.drop (l.length - 4) := by
  simp only [pySlice]
  norm_num
  have h0 : ¬ ((l.length : Int) < 0) := by omega
  rw [if_neg h0]
  have h1 : (((l.length : Int) + -4) ⊔ 0).toNat = l.length - 4 := by omega
  have h2 : ((l.length : Int)).toNat = l.length := by omega
  rw [h1, h2, List.take_length]

/-! ## Claim C4: the single-chunk case -/

/-- C4 counterexample.  The claim says the single chunk equals the input
trimmed of surrounding whitespace; on `" a "` (length 3, within the
default chunk size 1000) `chunk_text` returns `[" a "]` verbatim, not
`["a"]` — the `len(text) <= chunk_size` branch performs no `strip()`. -/
theorem C4_counterexample :
    chunk_text 1 " a ".data none none = some [" a ".data] ∧
    chunk_text 1 " a ".data none none ≠ some [pyStrip " a ".data] := by
  decide

/-- C4 (amended): for every text no longer than the effective chunk
size, `chunk_text` returns exactly one chunk, equal to the input text
verbatim (untrimmed). -/
theorem C4_theorem (fuel : Nat) (text : List Char) (cs ov : Option Int)
    (h : (text.length : Int) ≤ pyOrInt cs 1000) :
    chunk_text fuel text cs ov = some [text] := by
  simp [chunk_text, h]

/-- C4 witness: the amended theorem applied at `" a "`. -/
theorem C4_witness :
    ((" a ".data.length : Int) ≤ pyOrInt none 1000) ∧
    chunk_text 1 " a ".data none none = some [" a ".data] :=
  ⟨by decide, C4_theorem 1 " a ".data none none (by decide)⟩

/-! ## Claim C5: the token-budget guard -/

/-- An adversarial but legitimate instance of the external tokenizer
interface: every character is one token, and `decode` returns the empty
text.  It witnesses that nothing in the source constrains the token
count of a decoded prefix. -/
def toyEncoding : Encoding := ⟨fun t => t.map (fun _ => 0), fun _ => []⟩

/-- C5 counterexample.  On a text of 8001 single-token characters the
guard of `generate_summary` (model ceiling 8000 for `gpt-4`) sends
onward the decode of the first 8000 tokens, whose token count under the
same tokenizer is 0, not exactly 8000: the source never re-encodes the
truncated text, so the exactly-N part of the claim is not guaranteed by
the code for an arbitrary tokenizer. -/
theorem C5_counterexample :
    summaryMaxTokens "gpt-4".data <
      count_tokens toyEncoding (List.replicate 8001 'a') ∧
    count_tokens toyEncoding
        (generate_summary_text toyEncoding "gpt-4".data
          (List.replicate 8001 'a')) ≠ summaryMaxTokens "gpt-4".data := by
  have henc : count_tokens toyEncoding (List.replicate 8001 'a') = 8001 := by
    show (List.map (fun _ => 0) (List.replicate 8001 'a')).length = 8001
    rw [List.length_map, List.length_replicate]
  have hmax : summaryMaxTokens "gpt-4".data = 8000 := by
    rw [summaryMaxTokens, if_pos rfl]
  have hsent : generate_summary_text toyEncoding "gpt-4".data
      (List.replicate 8001 'a') = [] := by
    show (if count_tokens toyEncoding (List.replicate 8001 'a') >
        summaryMaxTokens "gpt-4".data
      then toyEncoding.decode ((toyEncoding.encode (List.replicate 8001 'a')).take
        (summaryMaxTokens "gpt-4".data))
      else List.replicate 8001 'a') = []
    rw [henc, hmax, if_pos (by norm_num : (8001 : ℕ) > 8000)]
    rfl
  refine ⟨by rw [henc, hmax]; norm_num, ?_⟩
  rw [hsent, hmax]
  show (List.map (fun _ => 0) ([] : List Char)).length ≠ 8000
  simp

/-- C5 (amended): the text `generate_summary` sends onward is unchanged
when its token count is within the model ceiling, and otherwise equals
the decode of the first `max_tokens` tokens of its encoding (a hard
prefix truncation).  That its re-encoded token count is exactly the
ceiling is not enforced by the code and holds only for tokenizers that
re-encode such a decoded prefix to itself. -/
theorem C5_theorem (enc : Encoding) (model text : List Char) :
    generate_summary_text enc model text =
      if count_tokens enc text ≤ summaryMaxTokens model then text
      else enc.decode ((enc.encode text).take (summaryMaxTokens model)) := by
  unfold generate_summary_text
  by_cases h : count_tokens enc text ≤ summaryMaxTokens model
  · rw [if_neg (by omega), if_pos h]
  · rw [if_pos (by omega), if_neg h]

/-! ## Claim C7: the history window -/

/-- C7: the message sequence `answer_question` sends to the generation
provider is the fixed system message, then exactly the last (at most 4)
history messages in original order — a suffix of the history — then the
single user message holding context and question; so at most 4 history
messages are ever included. -/
theorem C7_theorem (question : List Char) (context_chunks : List (List Char))
    (chat_history : List Msg) :
    answer_question_messages question context_chunks chat_history =
      qaSystemMsg :: (chat_history.drop (chat_history.length - 4) ++
        [qaUserMsg question context_chunks]) ∧
    (chat_history.drop (chat_history.length - 4)).length ≤ 4 ∧
    chat_history.drop (chat_history.length - 4) <:+ chat_history := by
  refine ⟨?_, ?_, ?_⟩
  · unfold answer_question_messages
    rw [pySlice_last_four]
    simp
  · simp only [List.length_drop]
    omega
  · exact ⟨chat_history.take (chat_history.length - 4),
      List.take_append_drop _ _⟩

/-! ## Claim C9: shape invariant of `_parse_insights` -/

/-- All items of the three sections together. -/
def Insights.allItems (r : Insights) : List (List Char) :=
  r.entities ++ r.themes ++ r.action_items

theorem mem_allItems_add {r : Insights} {sect : InsightSection}
    {item s : List Char} (h : s ∈ (r.add sect item).allItems) :
    s ∈ r.allItems ∨ s = item := by
  cases sect <;>
    simp only [Insights.add, Insights.allItems, List.mem_append,
      List.mem_singleton] at h ⊢ <;> tauto

/-- A line whose stripped form contains one of the three recognised
section headers. -/
def isHeaderLine (l : List Char) : Bool :=
  pyContains (pyStrip l) "KEY ENTITIES:".data ||
  pyContains (pyStrip l) "MAIN THEMES:".data ||
  pyContains (pyStrip l) "ACTION ITEMS:".data

/-- Every item produced by the loop that is not already in the
accumulator is the stripped remainder of a `- ` line that either
follows a recognised header line (some earlier line of the split) or
was processed while a section was already current (`sec ≠ none`). -/
theorem parse_insightsLoop_items (lines : List (List Char)) :
    ∀ sec acc s, s ∈ (parse_insightsLoop lines sec acc).allItems →
      s ∈ acc.allItems ∨
        ∃ pre l post, lines = pre ++ l :: post ∧
          "- ".data.isPrefixOf (pyStrip l) ∧
          s = pyStrip (pySlice (pyStrip l) 2 ((pyStrip l).length : Int)) ∧
          s ≠ [] ∧ pyLower s ≠ "none identified".data ∧
          ((∃ lh ∈ pre, isHeaderLine lh = true) ∨ sec ≠ none) := by
  induction lines with
  | nil => intro sec acc s hs; exact Or.inl hs
  | cons l0 rest ih =>
    intro sec acc s hs
    have lift : ∀ (sec' : Option InsightSection) acc',
        s ∈ (parse_insightsLoop rest sec' acc').allItems →
        (sec' ≠ none → isHeaderLine l0 = true ∨ sec ≠ none) →
        s ∈ acc'.allItems ∨
          ∃ pre l post, l0 :: rest = pre ++ l :: post ∧
            "- ".data.isPrefixOf (pyStrip l) ∧
            s = pyStrip (pySlice (pyStrip l) 2 ((pyStrip l).length : Int)) ∧
            s ≠ [] ∧ pyLower s ≠ "none identified".data ∧
            ((∃ lh ∈ pre, isHeaderLine lh = true) ∨ sec ≠ none) := by
      intro sec' acc' h hsec
      rcases ih sec' acc' s h with h' | ⟨pre, l, post, heq, ha, hb, hc, hd, he⟩
      · exact Or.inl h'
      · refine Or.inr ⟨l0 :: pre, l, post, by rw [heq]; rfl, ha, hb, hc, hd, ?_⟩
        rcases he with ⟨lh, hlh, hh⟩ | hsome
        · exact Or.inl ⟨lh, List.mem_cons_of_mem _ hlh, hh⟩
        · rcases hsec hsome with hh | hs'
          · exact Or.inl ⟨l0, List.mem_cons_self _ _, hh⟩
          · exact Or.inr hs'
    cases sec with
    | none =>
      simp only [parse_insightsLoop] at hs
      split_ifs at hs with h1 h2 h3
      · exact lift _ _ hs (fun _ => Or.inl (by simp [isHeaderLine, h1]))
      · exact lift _ _ hs (fun _ => Or.inl (by simp [isHeaderLine, h2]))
      · exact lift _ _ hs (fun _ => Or.inl (by simp [isHeaderLine, h3]))
      · exact lift _ _ hs (fun hne => absurd rfl hne)
    | some sect =>
      simp only [parse_insightsLoop] at hs
      split_ifs at hs with h1 h2 h3 h4 h5
      · exact lift _ _ hs (fun _ => Or.inl (by simp [isHeaderLine, h1]))
      · exact lift _ _ hs (fun _ => Or.inl (by simp [isHeaderLine, h2]))
      · exact lift _ _ hs (fun _ => Or.inl (by simp [isHeaderLine, h3]))
      · rcases lift _ _ hs (fun _ => Or.inr (by simp)) with h' | h'
        · rcases mem_allItems_add h' with h'' | h''
          · exact Or.inl h''
          · exact Or.inr ⟨[], l0, rest, rfl, h4, h'', h'' ▸ h5.1, h'' ▸ h5.2,
              Or.inr (by simp)⟩
        · exact Or.inr h'
      · exact lift _ _ hs (fun _ => Or.inr (by simp))
      · exact lift _ _ hs (fun _ => Or.inr (by simp))

theorem parse_insightsLoop_no_header (lines : List (List Char)) :
    ∀ acc, (∀ l ∈ lines,
        ¬ pyContains (pyStrip l) "KEY ENTITIES:".data ∧
        ¬ pyContains (pyStrip l) "MAIN THEMES:".data ∧
        ¬ pyContains (pyStrip l) "ACTION ITEMS:".data) →
      parse_insightsLoop lines none acc = acc := by
  induction lines with
  | nil => intro acc _; rfl
  | cons l rest ih =>
    intro acc h
    obtain ⟨h1, h2, h3⟩ := h l (List.mem_cons_self _ _)
    simp only [parse_insightsLoop, if_neg h1, if_neg h2, if_neg h3]
    exact ih acc (fun l' hl' => h l' (List.mem_cons_of_mem _ hl'))

/-- C9: `_parse_insights` returns the fixed three-field record (the dict
has exactly the keys `entities`, `themes`, `action_items`, which the
`Insights` type renders by construction); every item it holds is
non-empty, differs case-insensitively from `none identified`, and is
the stripped remainder of a `- ` line that comes strictly after some
line containing a recognised section header; and when no line contains
a recognised header, all three lists are empty. -/
theorem C9_theorem (content : List Char) :
    (∀ s, s ∈ (_parse_insights content).allItems →
      s ≠ [] ∧ pyLower s ≠ "none identified".data ∧
      ∃ pre l post, content.splitOn '\n' = pre ++ l :: post ∧
        (∃ lh ∈ pre, isHeaderLine lh = true) ∧
        "- ".data.isPrefixOf (pyStrip l) ∧
        s = pyStrip (pySlice (pyStrip l) 2 ((pyStrip l).length : Int))) ∧
    ((∀ l ∈ content.splitOn '\n', isHeaderLine l = false) →
      _parse_insights content = ⟨[], [], []⟩) := by
  constructor
  · intro s hs
    rcases parse_insightsLoop_items (content.splitOn '\n') none ⟨[], [], []⟩ s hs with
      h | ⟨pre, l, post, heq, ha, hb, hc, hd, he⟩
    · simp [Insights.allItems] at h
    · refine ⟨hc, hd, pre, l, post, heq, ?_, ha, hb⟩
      rcases he with hh | hsome
      · exact hh
      · exact absurd rfl hsome
  · intro h
    apply parse_insightsLoop_no_header
    intro l hl
    have h1 : isHeaderLine l = false := h l hl
    rw [isHeaderLine] at h1
    refine ⟨?_, ?_, ?_⟩ <;> intro hx <;> rw [hx] at h1 <;> simp at h1

/-- C9 witness: the theorem applied to a concrete response, with its
inner hypotheses discharged on the item `Alice`, which sits on a `- `
line after the `KEY ENTITIES:` header line. -/
theorem C9_witness :
    "Alice".data ∈ (_parse_insights
      "KEY ENTITIES:\n- Alice\n- None identified\nMAIN THEMES:\n".data).allItems ∧
    "Alice".data ≠ [] ∧
    pyLower "Alice".data ≠ "none identified".data ∧
    ∃ pre l post,
      ("KEY ENTITIES:\n- Alice\n- None identified\nMAIN THEMES:\n".data).splitOn '\n' =
        pre ++ l :: post ∧
      (∃ lh ∈ pre, isHeaderLine lh = true) ∧
      "- ".data.isPrefixOf (pyStrip l) ∧
      "Alice".data = pyStrip (pySlice (pyStrip l) 2 ((pyStrip l).length : Int)) :=
  ⟨by decide,
    ( C9_theorem ("KEY ENTITIES:\n- Alice\n- None identified\nMAIN THEMES:\n".data)).1
      "Alice".data (by decide)⟩

/-! ## Claim C10: dedup subsequence and idempotence -/

theorem mergeLoop_sublist (t : ℚ) :
    ∀ (l seen : List (List Char)), List.Sublist (mergeLoop t l seen) l := by
  intro l
  induction l with
  | nil => intro seen; simp [mergeLoop]
  | cons c rest ih =>
    intro seen
    simp only [mergeLoop]
    split_ifs with h
    · exact (ih seen).cons c
    · exact (ih (seen ++ [normalizeChunk c])).cons₂ c

theorem mergeLoop_idem (t : ℚ) :
    ∀ (l seen : List (List Char)),
      mergeLoop t (mergeLoop t l seen) seen = mergeLoop t l seen := by
  intro l
  induction l with
  | nil => intro seen; simp [mergeLoop]
  | cons c rest ih =>
    intro seen
    by_cases h : seen.any (fun s => isDuplicatePair (normalizeChunk c) s t)
    · simp only [mergeLoop, if_pos h]
      exact ih seen
    · simp only [mergeLoop, if_neg h]
      congr 1
      exact ih (seen ++ [normalizeChunk c])

/-- C10: `merge_overlapping_chunks` returns a subsequence of its input
(kept in original order, the earliest representative of each duplicate
class surviving, as the loop keeps a chunk exactly when it does not
duplicate an earlier kept one), and it is idempotent: re-running it on
its own output with the same threshold changes nothing. -/
theorem C10_theorem (chunks : List (List Char)) (t : ℚ) :
    List.Sublist (merge_overlapping_chunks chunks t) chunks ∧
    merge_overlapping_chunks (merge_overlapping_chunks chunks t) t =
      merge_overlapping_chunks chunks t := by
  rcases le_or_lt chunks.length 1 with h | h
  · have e : merge_overlapping_chunks chunks t = chunks := by
      rw [merge_overlapping_chunks, if_pos h]
    rw [e]
    exact ⟨List.Sublist.refl _, e⟩
  · have e : merge_overlapping_chunks chunks t = mergeLoop t chunks [] := by
      rw [merge_overlapping_chunks, if_neg (by omega)]
    rw [e]
    refine ⟨mergeLoop_sublist t chunks [], ?_⟩
    rcases le_or_lt (mergeLoop t chunks []).length 1 with h2 | h2
    · rw [merge_overlapping_chunks, if_pos h2]
    · rw [merge_overlapping_chunks, if_neg (by omega), mergeLoop_idem]

/-! ## EmbeddingStore lemmas -/

/-- A successful `create_embeddings` call received a non-empty chunk
list, embedded every batch, and installed exactly those chunks with a
fresh index over the returned vectors. -/
theorem create_embeddings_true {provider : BatchProvider}
    {st0 st' : EmbeddingStore} {tcs : List (List Char)}
    (h : EmbeddingStore.create_embeddings provider st0 tcs = (true, st')) :
    ∃ vecs, embedBatches provider tcs = some vecs ∧ tcs ≠ [] ∧
      st' = ⟨tcs, some ⟨1536, vecs⟩⟩ := by
  by_cases htc : tcs = []
  · simp [EmbeddingStore.create_embeddings, htc] at h
  · simp only [EmbeddingStore.create_embeddings, htc, if_false, ite_false] at h
    match hb : embedBatches provider tcs with
    | none => rw [hb] at h; simp at h
    | some vecs =>
      rw [hb] at h
      simp only [Prod.mk.injEq, true_and] at h
      exact ⟨vecs, rfl, htc, h.symm⟩

/-- A failed `create_embeddings` call leaves the index field untouched. -/
theorem create_embeddings_false_index {provider : BatchProvider}
    {st0 st' : EmbeddingStore} {tcs : List (List Char)}
    (h : EmbeddingStore.create_embeddings provider st0 tcs = (false, st')) :
    st'.index = st0.index := by
  by_cases htc : tcs = []
  · rw [EmbeddingStore.create_embeddings, if_pos htc] at h
    have h2 := ((Prod.mk.injEq _ _ _ _).mp h).2
    rw [← h2]
  · simp only [EmbeddingStore.create_embeddings, htc, if_false, ite_false] at h
    match hb : embedBatches provider tcs with
    | none =>
      rw [hb] at h
      simp only [Prod.mk.injEq, true_and] at h
      rw [← h]
    | some vecs => rw [hb] at h; simp at h

/-- Lemma: `index.search` always returns exactly `k` entries. -/
theorem FaissIndex.search_length (idx : FaissIndex) (q : List ℚ) (k : Nat) :
    (idx.search q k).length = k := by
  simp only [FaissIndex.search]
  rw [List.length_append, List.length_take, List.length_replicate,
    List.length_insertionSort, List.length_map, List.length_range]
  omega

/-- When `k` does not exceed the number of stored vectors, every entry
of `index.search` is a real position: inside `[0, ntotal)`. -/
theorem FaissIndex.search_mem (idx : FaissIndex) (q : List ℚ) (k : Nat)
    (hk : k ≤ idx.vecs.length) :
    ∀ p ∈ idx.search q k, 0 ≤ p.1 ∧ p.1 < (idx.vecs.length : Int) := by
  intro p hp
  simp only [FaissIndex.search] at hp
  have hlen : (List.insertionSort faissRank
      ((List.range idx.vecs.length).map
        (fun i => (Int.ofNat i, dotQ (idx.vecs.getD i []) q)))).length =
      idx.vecs.length := by
    rw [List.length_insertionSort, List.length_map, List.length_range]
  rw [List.mem_append] at hp
  rcases hp with hp | hp
  · have hp' := List.mem_of_mem_take hp
    have hp'' := (List.perm_insertionSort faissRank _).mem_iff.mp hp'
    rw [List.mem_map] at hp''
    obtain ⟨i, hi, hip⟩ := hp''
    rw [List.mem_range] at hi
    rw [← hip]
    refine ⟨Int.ofNat_nonneg i, ?_⟩
    show ((i : Nat) : Int) < ((idx.vecs.length : Nat) : Int)
    exact_mod_cast hi
  · rw [List.mem_replicate] at hp
    omega

/-- When every hit is a real in-range position, the result loop keeps
all of them and the lookups succeed. -/
theorem searchResults_all_ok :
    ∀ (hits : List (Int × ℚ)) (chunks : List (List Char)),
      (∀ p ∈ hits, 0 ≤ p.1 ∧ p.1 < (chunks.length : Int)) →
      ∃ rs, searchResults hits chunks = some rs ∧ rs.length = hits.length := by
  intro hits
  induction hits with
  | nil => intro chunks _; exact ⟨[], rfl, rfl⟩
  | cons hd tl ih =>
    intro chunks hok
    obtain ⟨i, d⟩ := hd
    obtain ⟨hi0, hilt⟩ := hok (i, d) (List.mem_cons_self _ _)
    obtain ⟨rs, hrs, hlen⟩ := ih chunks (fun p hp => hok p (List.mem_cons_of_mem _ hp))
    have hnat : i.toNat < chunks.length := by omega
    have hc : chunks.get? i.toNat = some (chunks.get ⟨i.toNat, hnat⟩) :=
      List.get?_eq_get hnat
    refine ⟨(chunks.get ⟨i.toNat, hnat⟩, d) :: rs, ?_, by simp [hlen]⟩
    simp only [searchResults, if_pos hilt]
    rw [pyGet, if_pos hi0, hc, hrs]
    rfl

/-- The result loop never returns more entries than it was handed. -/
theorem searchResults_length_le :
    ∀ (hits : List (Int × ℚ)) (chunks : List (List Char)) rs,
      searchResults hits chunks = some rs → rs.length ≤ hits.length := by
  intro hits
  induction hits with
  | nil =>
    intro chunks rs h
    simp only [searchResults, Option.some.injEq] at h
    simp [← h]
  | cons hd tl ih =>
    intro chunks rs h
    obtain ⟨i, d⟩ := hd
    simp only [searchResults] at h
    split_ifs at h with hi
    · match hg : pyGet chunks i with
      | none => rw [hg] at h; simp at h
      | some c =>
        rw [hg] at h
        match hrec : searchResults tl chunks with
        | none => rw [hrec] at h; simp at h
        | some rs' =>
          rw [hrec] at h
          simp at h
          have hle := ih chunks rs' hrec
          rw [← h]
          simp only [List.length_cons]
          omega
    · have hle := ih chunks rs h
      simp only [List.length_cons]
      omega

/-- The length of an `embedBatches` result, for a provider that returns
one vector per input (as the OpenAI embeddings API does). -/
theorem embedBatches_length (provider : BatchProvider)
    (hp : ∀ b vs, provider b = some vs → vs.length = b.length) :
    ∀ l vecs, embedBatches provider l = some vecs → vecs.length = l.length := by
  intro l
  induction l using embedBatches.induct provider with
  | case1 =>
    intro vecs h
    simp [embedBatches] at h
    simp [← h]
  | case2 l hne hprov =>
    intro vecs h
    rw [embedBatches, dif_neg hne, hprov] at h
    simp at h
  | case3 l hne vs hprov ih =>
    intro vecs h
    rw [embedBatches, dif_neg hne, hprov] at h
    match hrec : embedBatches provider (l.drop 10) with
    | none => rw [hrec] at h; simp at h
    | some rest =>
      rw [hrec] at h
      simp at h
      have h1 := ih rest hrec
      have h2 := hp _ _ hprov
      rw [← h]
      simp [h1, h2]
      omega

/-! ## Concrete collaborators used by the store witnesses -/

/-- A provider that embeds every chunk as the vector `[1]`. -/
def wProvider : BatchProvider := fun b => some (b.map (fun _ => [(1 : ℚ)]))

/-- A query embedder returning `[1]`. -/
def wEmbed : List Char → Option (List ℚ) := fun _ => some [(1 : ℚ)]

/-- A provider whose every batch call fails. -/
def failProvider : BatchProvider := fun _ => none

/-- The store a successful one-chunk build produces. -/
def wStore : EmbeddingStore := ⟨["alpha".data], some ⟨1536, [[(1 : ℚ)]]⟩⟩

/-- A store holding a previously successful one-chunk build. -/
def prevStore : EmbeddingStore := ⟨["old".data], some ⟨1536, [[(1 : ℚ)]]⟩⟩

/-! ## Claim C1: build atomicity -/

/-- C1 counterexample.  Start from a store holding a previously
successful build and rebuild with a failing provider: the call reports
failure, yet `is_ready()` is still true — `self.chunks` was reassigned
before embedding and the old `self.index` was never cleared — and
`search` happily returns a result pairing the NEW chunk text with the
OLD vector: stale state remains queryable, refuting the claim for
stores with a prior build. -/
theorem C1_counterexample :
    (EmbeddingStore.create_embeddings failProvider prevStore ["new".data]).1 =
      false ∧
    EmbeddingStore.is_ready
      (EmbeddingStore.create_embeddings failProvider prevStore ["new".data]).2 =
      true ∧
    EmbeddingStore.search wEmbed
      (EmbeddingStore.create_embeddings failProvider prevStore ["new".data]).2
      "q".data none = [("new".data, 1)] := by
  have hb : EmbeddingStore.create_embeddings failProvider prevStore ["new".data] =
      (false, ⟨["new".data], some ⟨1536, [[(1 : ℚ)]]⟩⟩) := by
    simp [EmbeddingStore.create_embeddings, embedBatches, failProvider, prevStore]
  rw [hb]
  refine ⟨rfl, rfl, ?_⟩
  have hne : ¬ (["new".data] = ([] : List (List Char))) := by decide
  simp only [EmbeddingStore.search, pyOrInt, wEmbed, if_neg hne]
  norm_num [FaissIndex.search, dotQ, searchResults, pyGet,
    List.insertionSort, List.orderedInsert, faissRank]

/-- C1 (amended): provided the store holds no previous successful build
(its index is absent, as in the application, which always builds into a
fresh store — src/app.py constructs a new `EmbeddingStore` per
document), a failed `create_embeddings` leaves `is_ready()` false and
`search` returns no results. -/
theorem C1_theorem (provider : BatchProvider) (st0 st' : EmbeddingStore)
    (tcs : List (List Char)) (hidx : st0.index = none)
    (hfail : EmbeddingStore.create_embeddings provider st0 tcs = (false, st')) :
    EmbeddingStore.is_ready st' = false ∧
    ∀ embed query top_k,
      EmbeddingStore.search embed st' query top_k = [] := by
  have hidx' : st'.index = none := by
    rw [create_embeddings_false_index hfail, hidx]
  constructor
  · simp [EmbeddingStore.is_ready, hidx']
  · intro embed query top_k
    simp [EmbeddingStore.search, hidx']

/-- C1 witness: the amended theorem at a fresh store and a failing
provider. -/
theorem C1_witness :
    ((⟨[], none⟩ : EmbeddingStore).index = none) ∧
    EmbeddingStore.create_embeddings failProvider ⟨[], none⟩ ["new".data] =
      (false, ⟨["new".data], none⟩) ∧
    EmbeddingStore.is_ready ⟨["new".data], none⟩ = false ∧
    EmbeddingStore.search wEmbed (⟨["new".data], none⟩ : EmbeddingStore)
      "q".data none = [] := by
  have hb : EmbeddingStore.create_embeddings failProvider ⟨[], none⟩
      ["new".data] = (false, ⟨["new".data], none⟩) := by
    simp [EmbeddingStore.create_embeddings, embedBatches, failProvider]
  have h := C1_theorem failProvider ⟨[], none⟩ ⟨["new".data], none⟩
    ["new".data] rfl hb
  exact ⟨rfl, hb, h.1, h.2 wEmbed "q".data none⟩

/-! ## Claim C6: top-k clamp -/

/-- C6: on a store built from `n` chunks, a request with `top_k > n`
returns at most `n` results — `top_k` is clamped with
`min(top_k, len(self.chunks))` before the index is searched — and the
call cannot fail: every branch of `search`, including the exception
paths, returns a plain (possibly shorter) list. -/
theorem C6_theorem (provider : BatchProvider) (st0 st' : EmbeddingStore)
    (text_chunks : List (List Char)) (embed : List Char → Option (List ℚ))
    (query : List Char) (k : Int)
    (hbuild : EmbeddingStore.create_embeddings provider st0 text_chunks =
      (true, st'))
    (_hk : (text_chunks.length : Int) < k) :
    (EmbeddingStore.search embed st' query (some k)).length ≤
      text_chunks.length := by
  obtain ⟨vecs, hb, htc, hst⟩ := create_embeddings_true hbuild
  subst hst
  simp only [EmbeddingStore.search]
  rw [if_neg htc]
  cases hq : embed query with
  | none => simp
  | some qv =>
    simp only [hq]
    cases hsr : searchResults
        (FaissIndex.search ⟨1536, vecs⟩ qv
          (min (pyOrInt (some k) 3) (text_chunks.length : Int)).toNat)
        text_chunks with
    | none => simp [hsr]
    | some rs =>
      simp only [hsr]
      have h1 := searchResults_length_le _ _ _ hsr
      have h2 := FaissIndex.search_length ⟨1536, vecs⟩ qv
        (min (pyOrInt (some k) 3) (text_chunks.length : Int)).toNat
      rw [h2] at h1
      omega

/-- C6 witness: a one-chunk build queried with `top_k = 5`. -/
theorem C6_witness :
    EmbeddingStore.create_embeddings wProvider ⟨[], none⟩ ["alpha".data] =
      (true, wStore) ∧
    ((["alpha".data].length : Int) < 5) ∧
    (EmbeddingStore.search wEmbed wStore "q".data (some 5)).length ≤
      ["alpha".data].length := by
  have hb : EmbeddingStore.create_embeddings wProvider ⟨[], none⟩
      ["alpha".data] = (true, wStore) := by
    simp [EmbeddingStore.create_embeddings, embedBatches, wProvider, wStore]
  exact ⟨hb, by norm_num,
    C6_theorem wProvider ⟨[], none⟩ wStore ["alpha".data] wEmbed "q".data 5
      hb (by norm_num)⟩

/-! ## Claim C8: implicit top_k coercion -/

/-- C8: with a built store of `n ≥ 1` chunks and a provider returning
one vector per input, `top_k = 0` behaves exactly like `top_k = None`
(Python `or` treats both as unset), yielding the default
`TOP_K_RESULTS = 3` clamped to `n`: the search returns exactly
`min 3 n` results, in particular not zero. -/
theorem C8_theorem (provider : BatchProvider) (st0 st' : EmbeddingStore)
    (text_chunks : List (List Char)) (embed : List Char → Option (List ℚ))
    (query : List Char) (qv : List ℚ)
    (hp : ∀ b vs, provider b = some vs → vs.length = b.length)
    (hbuild : EmbeddingStore.create_embeddings provider st0 text_chunks =
      (true, st'))
    (hq : embed query = some qv) :
    EmbeddingStore.search embed st' query (some 0) =
      EmbeddingStore.search embed st' query none ∧
    (EmbeddingStore.search embed st' query none).length =
      min 3 text_chunks.length ∧
    0 < (EmbeddingStore.search embed st' query none).length := by
  obtain ⟨vecs, hb, htc, hst⟩ := create_embeddings_true hbuild
  subst hst
  have hvl : vecs.length = text_chunks.length :=
    embedBatches_length provider hp _ _ hb
  have hpos : 0 < text_chunks.length := List.length_pos.mpr htc
  have hknat : (min (3 : Int) (text_chunks.length : Int)).toNat ≤ vecs.length := by
    omega
  have hmem := FaissIndex.search_mem ⟨1536, vecs⟩ qv
    (min (3 : Int) (text_chunks.length : Int)).toNat hknat
  have hhits := FaissIndex.search_length ⟨1536, vecs⟩ qv
    (min (3 : Int) (text_chunks.length : Int)).toNat
  obtain ⟨rs, hrs, hlen⟩ := searchResults_all_ok
    (FaissIndex.search ⟨1536, vecs⟩ qv
      (min (3 : Int) (text_chunks.length : Int)).toNat)
    text_chunks
    (fun p hpmem => by
      have hm := hmem p hpmem
      have hm2 : p.1 < (vecs.length : Int) := hm.2
      exact ⟨hm.1, by omega⟩)
  have hval : EmbeddingStore.search embed
      ⟨text_chunks, some ⟨1536, vecs⟩⟩ query none = rs := by
    simp only [EmbeddingStore.search, pyOrInt]
    rw [if_neg htc]
    simp only [hq, hrs]
  have hval0 : EmbeddingStore.search embed
      ⟨text_chunks, some ⟨1536, vecs⟩⟩ query (some 0) = rs := by
    simp only [EmbeddingStore.search, pyOrInt]
    norm_num
    rw [if_neg htc]
    simp only [hq, hrs]
  refine ⟨by rw [hval, hval0], ?_, ?_⟩
  · rw [hval, hlen, hhits]
    omega
  · rw [hval, hlen, hhits]
    omega

/-- C8 witness: a one-chunk build searched with `top_k = 0` and `None`. -/
theorem C8_witness :
    (∀ b vs, wProvider b = some vs → vs.length = b.length) ∧
    EmbeddingStore.create_embeddings wProvider ⟨[], none⟩ ["alpha".data] =
      (true, wStore) ∧
    wEmbed "q".data = some [(1 : ℚ)] ∧
    EmbeddingStore.search wEmbed wStore "q".data (some 0) =
      EmbeddingStore.search wEmbed wStore "q".data none ∧
    (EmbeddingStore.search wEmbed wStore "q".data none).length =
      min 3 ["alpha".data].length ∧
    0 < (EmbeddingStore.search wEmbed wStore "q".data none).length := by
  have hp : ∀ b vs, wProvider b = some vs → vs.length = b.length := by
    intro b vs h
    simp [wProvider] at h
    rw [← h]
    simp
  have hb : EmbeddingStore.create_embeddings wProvider ⟨[], none⟩
      ["alpha".data] = (true, wStore) := by
    simp [EmbeddingStore.create_embeddings, embedBatches, wProvider, wStore]
  have hq : wEmbed "q".data = some [(1 : ℚ)] := rfl
  obtain ⟨h1, h2, h3⟩ := C8_theorem wProvider ⟨[], none⟩ wStore
    ["alpha".data] wEmbed "q".data [(1 : ℚ)] hp hb hq
  exact ⟨hp, hb, hq, h1, h2, h3⟩

/-! ## Chunker lemmas -/

theorem sentencePuncts_shape : ∀ p ∈ sentencePuncts, p.length = 2 ∧ p ≠ [] := by
  decide

theorem findSome?_exists {α β : Type} {f : α → Option β} :
    ∀ {l : List α} {b : β}, l.findSome? f = some b → ∃ a ∈ l, f a = some b := by
  intro l
  induction l with
  | nil => intro b h; simp [List.findSome?_nil] at h
  | cons a t ih =>
    intro b h
    rw [List.findSome?_cons] at h
    cases hf : f a with
    | some c =>
      rw [hf] at h
      simp at h
      exact ⟨a, List.mem_cons_self _ _, by rw [hf, h]⟩
    | none =>
      rw [hf] at h
      obtain ⟨x, hx, hfx⟩ := ih h
      exact ⟨x, List.mem_cons_of_mem _ hx, hfx⟩

/-- A found occurrence fits inside the string searched. -/
theorem pyRfind_le {needle hay : List Char} (hne : needle ≠ [])
    (h : 0 ≤ pyRfind needle hay) :
    pyRfind needle hay + (needle.length : Int) ≤ (hay.length : Int) := by
  have key : ∀ i ∈ (List.range (hay.length + 1)).filter
      (fun i => needle.isPrefixOf (hay.drop i)),
      (i : Int) + (needle.length : Int) ≤ (hay.length : Int) := by
    intro i hi
    rw [List.mem_filter] at hi
    have hle := ( List.isPrefixOf_iff_prefix.mp hi.2).length_le
    rw [List.length_drop] at hle
    have hnl : 1 ≤ needle.length := List.length_pos.mpr hne
    omega
  cases hg : ((List.range (hay.length + 1)).filter
      (fun i => needle.isPrefixOf (hay.drop i))).getLast? with
  | none =>
    simp only [pyRfind, hg] at h
    exact absurd h (by norm_num)
  | some i =>
    simp only [pyRfind, hg]
    have hmem : i ∈ (List.range (hay.length + 1)).filter
        (fun i => needle.isPrefixOf (hay.drop i)) := by
      obtain ⟨hne', heq⟩ :=
        List.mem_getLast?_eq_getLast (x := i) (by rw [hg]; rfl)
      rw [heq]
      exact List.getLast_mem hne'
    exact key i hmem

/-- Shape of a successful marker scan: the marker is one of the six,
the position is its last occurrence, and it clears the strict half
threshold. -/
theorem findPunctCut_some {w : List Char} {cs : Int} {ip : Int × List Char}
    (h : findPunctCut w cs = some ip) :
    ip.2 ∈ sentencePuncts ∧ pyRfind ip.2 w = ip.1 ∧ 2 * ip.1 > cs := by
  rw [findPunctCut] at h
  obtain ⟨p, hmem, hfp⟩ := findSome?_exists h
  dsimp only at hfp
  split_ifs at hfp with hc
  · obtain ⟨i, q⟩ := ip
    simp only [Option.some.injEq, Prod.mk.injEq] at hfp
    obtain ⟨h1, h2⟩ := hfp
    subst h2
    rw [h1] at hc
    exact ⟨hmem, h1, hc⟩

theorem pySlice_window_length (text : List Char) (start cs : Int)
    (h0 : 0 ≤ start) (hcs : 0 ≤ cs) :
    ((pySlice text start (start + cs)).length : Int) ≤ cs := by
  simp only [pySlice]
  rw [if_neg (not_lt.mpr h0), if_neg (not_lt.mpr (by omega : (0 : Int) ≤ start + cs))]
  rw [List.length_drop, List.length_take]
  omega

theorem pySlice_ne_nil (text : List Char) (start e : Int)
    (h0 : 0 ≤ start) (hlt : start < (text.length : Int)) (he : start < e) :
    pySlice text start e ≠ [] := by
  apply List.ne_nil_of_length_pos
  simp only [pySlice]
  rw [if_neg (not_lt.mpr h0), if_neg (not_lt.mpr (by omega : (0 : Int) ≤ e))]
  rw [List.length_drop, List.length_take]
  omega

theorem mem_of_mem_pySlice {α : Type} {c : α} {s : List α} {i j : Int}
    (h : c ∈ pySlice s i j) : c ∈ s :=
  List.mem_of_mem_take (List.mem_of_mem_drop h)

theorem dropWhile_all_false {l : List Char}
    (h : ∀ c ∈ l, isPySpace c = false) : l.dropWhile isPySpace = l := by
  cases l with
  | nil => rfl
  | cons a t =>
    rw [List.dropWhile_cons, h a (List.mem_cons_self _ _)]
    simp

/-- Stripping changes nothing on whitespace-free text. -/
theorem pyStrip_eq_self {l : List Char}
    (h : ∀ c ∈ l, isPySpace c = false) : pyStrip l = l := by
  unfold pyStrip
  rw [dropWhile_all_false h,
    dropWhile_all_false (fun c hc => h c (List.mem_reverse.mp hc)),
    List.reverse_reverse]

/-- With `2 * overlap ≤ chunk_size` every iteration advances the window
start by at least one, and the chosen end never exceeds the raw offset. -/
theorem chunkEnd_advance (text : List Char) (start cs ov : Int)
    (hcs : 1 ≤ cs) (hov : 0 ≤ ov) (h2ov : 2 * ov ≤ cs) (h0 : 0 ≤ start) :
    start + ov + 1 ≤ chunkEnd text start cs ∧
      chunkEnd text start cs ≤ start + cs := by
  simp only [chunkEnd]
  by_cases he : start + cs < (text.length : Int)
  · rw [if_pos he]
    cases hf : findPunctCut (pySlice text start (start + cs)) cs with
    | none => simp only [hf]; constructor <;> omega
    | some ip =>
      simp only [hf]
      obtain ⟨hmem, hrfind, hcond⟩ := findPunctCut_some hf
      obtain ⟨hplen, hpne⟩ := sentencePuncts_shape ip.2 hmem
      have hplen2 : (ip.2.length : Int) = 2 := by rw [hplen]; rfl
      have hge0 : 0 ≤ pyRfind ip.2 (pySlice text start (start + cs)) := by
        rw [hrfind]; omega
      have hb := pyRfind_le hpne hge0
      rw [hrfind] at hb
      have hwl := pySlice_window_length text start cs h0 (by omega)
      constructor <;> omega
  · rw [if_neg he]
    constructor <;> omega

/-- With `2 * overlap ≤ chunk_size` the loop terminates once the fuel
covers the remaining distance. -/
theorem chunk_textLoop_total (text : List Char) (cs ov : Int)
    (hcs : 1 ≤ cs) (hov : 0 ≤ ov) (h2ov : 2 * ov ≤ cs) :
    ∀ (fuel : Nat) (start : Int), 0 ≤ start →
      (text.length : Int) ≤ start + fuel →
      ∃ r, chunk_textLoop fuel text cs ov start = some r := by
  intro fuel
  induction fuel with
  | zero =>
    intro start h0 hle
    refine ⟨[], ?_⟩
    simp only [chunk_textLoop]
    rw [if_neg (by push_cast at hle; omega)]
  | succ f ih =>
    intro start h0 hle
    by_cases hlt : start < (text.length : Int)
    · have hadv := chunkEnd_advance text start cs ov hcs hov h2ov h0
      obtain ⟨r, hr⟩ := ih (chunkEnd text start cs - ov) (by omega)
        (by push_cast at hle ⊢; omega)
      refine ⟨if pyStrip (pySlice text start (chunkEnd text start cs)) = []
        then r
        else pyStrip (pySlice text start (chunkEnd text start cs)) :: r, ?_⟩
      simp only [chunk_textLoop]
      rw [if_pos hlt, hr]
      rfl
    · exact ⟨[], by simp only [chunk_textLoop]; rw [if_neg hlt]⟩

/-- On whitespace-free text every in-range iteration emits its chunk, so
the loop result is non-empty. -/
theorem chunk_textLoop_ne_nil (text : List Char) (cs ov : Int)
    (hws : ∀ c ∈ text, isPySpace c = false)
    (hcs : 1 ≤ cs) (hov : 0 ≤ ov) (h2ov : 2 * ov ≤ cs) :
    ∀ (fuel : Nat) (start : Int) r, 0 ≤ start → start < (text.length : Int) →
      chunk_textLoop fuel text cs ov start = some r → r ≠ [] := by
  intro fuel
  cases fuel with
  | zero =>
    intro start r h0 hlt h
    simp only [chunk_textLoop] at h
    rw [if_pos hlt] at h
    exact absurd h (by simp)
  | succ f =>
    intro start r h0 hlt h
    simp only [chunk_textLoop] at h
    rw [if_pos hlt] at h
    have hadv := chunkEnd_advance text start cs ov hcs hov h2ov h0
    have hchunk : pyStrip (pySlice text start (chunkEnd text start cs)) ≠ [] := by
      rw [pyStrip_eq_self (fun c hc => hws c (mem_of_mem_pySlice hc))]
      exact pySlice_ne_nil text start _ h0 hlt (by omega)
    cases hrec : chunk_textLoop f text cs ov (chunkEnd text start cs - ov) with
    | none => rw [hrec] at h; simp at h
    | some rest =>
      rw [hrec] at h
      simp at h
      rw [if_neg hchunk] at h
      rw [← h]
      simp

/-! ## Claim C2: chunker termination and chunk count -/

/-- The property claimed: `chunk_text` terminates (some fuel suffices)
and yields at least two chunks. -/
def chunkTerminatesWithTwoChunks (text : List Char)
    (chunk_size overlap : Option Int) : Prop :=
  ∃ fuel r, chunk_text fuel text chunk_size overlap = some r ∧ 2 ≤ r.length

/-- The two-state cycle of the non-terminating run: with
`chunk_size = 10`, `overlap = 9` on `"abcdef. xyzz"`, the window start
alternates between `0` and `-1` forever. -/
theorem C2_cycle : ∀ f : Nat,
    chunk_textLoop f "abcdef. xyzz".data 10 9 0 = none ∧
    chunk_textLoop f "abcdef. xyzz".data 10 9 (-1) = none := by
  have step0 : ∀ g : Nat, chunk_textLoop (g + 1) "abcdef. xyzz".data 10 9 0 =
      (chunk_textLoop g "abcdef. xyzz".data 10 9 (-1)).map
        (fun rest => "abcdef.".data :: rest) := fun _ => rfl
  have step1 : ∀ g : Nat, chunk_textLoop (g + 1) "abcdef. xyzz".data 10 9 (-1) =
      (chunk_textLoop g "abcdef. xyzz".data 10 9 0).map (fun rest => rest) :=
    fun _ => rfl
  intro f
  induction f with
  | zero => exact ⟨by decide, by decide⟩
  | succ f ih =>
    refine ⟨?_, ?_⟩
    · rw [step0 f, ih.2]; rfl
    · rw [step1 f, ih.1]; rfl

/-- C2 counterexample.  `chunk_size = 10`, `overlap = 9` satisfies
`0 ≤ overlap < chunk_size`, and `"abcdef. xyzz"` is longer than the
chunk size, yet `chunk_text` never terminates: the sentence-boundary
cut moves the window end back to 8, the next start is `8 - 9 = -1`,
and from `-1` the (empty, Python-slice) window pushes the start back to
`0` — no fuel is ever enough, refuting both termination and positive
per-iteration progress. -/
theorem C2_counterexample :
    (10 : Int) < ("abcdef. xyzz".data.length : Int) ∧
    (0 : Int) ≤ 9 ∧ (9 : Int) < 10 ∧
    ¬ chunkTerminatesWithTwoChunks "abcdef. xyzz".data (some 10) (some 9) := by
  refine ⟨by decide, by decide, by decide, ?_⟩
  rintro ⟨fuel, r, hr, _⟩
  have hred : chunk_text fuel "abcdef. xyzz".data (some 10) (some 9) =
      chunk_textLoop fuel "abcdef. xyzz".data 10 9 0 := rfl
  rw [hred, (C2_cycle fuel).1] at hr
  exact absurd hr (by simp)

/-- C2 (amended): restrict the overlap to at most half the chunk size
(and note that an explicit `overlap = 0` is coerced to the default 200
by the Python `or`, hence `1 ≤ overlap`): then on whitespace-free text
longer than the chunk size, `chunk_text` terminates — every iteration
advances the start by at least one — and produces at least two chunks.
For `chunk_size / 2 < overlap < chunk_size` the original claim fails
(see the counterexample): a boundary cut can move the window end back
before `start + overlap`, so the loop need not terminate. -/
theorem C2_theorem (text : List Char) (cs ov : Int)
    (hws : ∀ c ∈ text, isPySpace c = false)
    (hcs : 1 ≤ cs) (hov : 1 ≤ ov) (h2ov : 2 * ov ≤ cs)
    (hlen : cs < (text.length : Int)) :
    ∃ r, chunk_text (text.length + 1) text (some cs) (some ov) = some r ∧
      2 ≤ r.length := by
  have hov0 : 0 ≤ ov := by omega
  have hlt0 : (0 : Int) < (text.length : Int) := by omega
  have hadv := chunkEnd_advance text 0 cs ov hcs hov0 h2ov le_rfl
  have hchunk : pyStrip (pySlice text 0 (chunkEnd text 0 cs)) ≠ [] := by
    rw [pyStrip_eq_self (fun c hc => hws c (mem_of_mem_pySlice hc))]
    exact pySlice_ne_nil text 0 _ le_rfl hlt0 (by omega)
  obtain ⟨rest, hrest⟩ := chunk_textLoop_total text cs ov hcs hov0 h2ov
    text.length (chunkEnd text 0 cs - ov) (by omega) (by omega)
  have hrne : rest ≠ [] := chunk_textLoop_ne_nil text cs ov hws hcs hov0 h2ov
    text.length (chunkEnd text 0 cs - ov) rest (by omega) (by omega) hrest
  have hwrap : chunk_text (text.length + 1) text (some cs) (some ov) =
      chunk_textLoop (text.length + 1) text cs ov 0 := by
    simp only [chunk_text, pyOrInt]
    rw [if_neg (by omega : ¬ (cs = 0)), if_neg (by omega : ¬ (ov = 0)),
      if_neg (not_le.mpr hlen)]
  have hstep : chunk_textLoop (text.length + 1) text cs ov 0 =
      (chunk_textLoop text.length text cs ov (chunkEnd text 0 cs - ov)).map
        (fun rest => if pyStrip (pySlice text 0 (chunkEnd text 0 cs)) = []
          then rest
          else pyStrip (pySlice text 0 (chunkEnd text 0 cs)) :: rest) := by
    simp only [chunk_textLoop]
    rw [if_pos hlt0]
  refine ⟨pyStrip (pySlice text 0 (chunkEnd text 0 cs)) :: rest, ?_, ?_⟩
  · rw [hwrap, hstep, hrest]
    simp [hchunk]
  · have : 1 ≤ rest.length := List.length_pos.mpr hrne
    simp only [List.length_cons]
    omega

/-- C2 witness: the amended theorem on twelve whitespace-free
characters with `chunk_size = 10`, `overlap = 2`. -/
theorem C2_witness :
    (∀ c ∈ "abcdefghijkl".data, isPySpace c = false) ∧
    (1 : Int) ≤ 10 ∧ (1 : Int) ≤ 2 ∧ (2 * 2 : Int) ≤ 10 ∧
    (10 : Int) < ("abcdefghijkl".data.length : Int) ∧
    ∃ r, chunk_text ("abcdefghijkl".data.length + 1) "abcdefghijkl".data
      (some 10) (some 2) = some r ∧ 2 ≤ r.length :=
  ⟨by decide, by decide, by decide, by decide, by decide,
    C2_theorem "abcdefghijkl".data 10 2 (by decide) (by decide) (by decide)
      (by decide) (by decide)⟩

/-! ## Claim C3: the sentence-boundary cut -/

/-- The claim reading of the boundary policy: the last occurrence in
the window of ANY of the six markers (modelled from the spec wording,
for comparison with the source behaviour). -/
def lastAnyMarker (w : List Char) : Int :=
  (sentencePuncts.map (fun p => pyRfind p w)).foldr max (-1)

/-- C3 counterexample.  In the first window of `"abcdef. ! Z12"`
(`chunk_size = 10`), the last occurrence of any marker is `"! "` at
position 8 — at or past the 50% point — so the claim requires the
chunk to end just after it, i.e. equal `strip(text[0:10]) =
"abcdef. !"`.  The code instead scans markers in a fixed order, finds
`". "` first (last occurrence 6, strictly past half), and cuts there:
the produced first chunk is `"abcdef."`. -/
theorem C3_counterexample :
    lastAnyMarker (pySlice "abcdef. ! Z12".data 0 10) = 8 ∧
    2 * lastAnyMarker (pySlice "abcdef. ! Z12".data 0 10) ≥ 10 ∧
    chunk_text 20 "abcdef. ! Z12".data (some 10) (some 2) =
      some ["abcdef.".data, ". ! Z12".data] ∧
    "abcdef.".data ≠ pyStrip (pySlice "abcdef. ! Z12".data 0
      (lastAnyMarker (pySlice "abcdef. ! Z12".data 0 10) + 2)) := by
  decide

/-- C3 (amended): when the raw end lies inside the text, the window is
cut after the last occurrence of the FIRST marker — in the fixed order
`". "`, `".\n"`, `"! "`, `"!\n"`, `"? "`, `"?\n"` — whose last
occurrence lies STRICTLY past the 50% point (`last_punct >
chunk_size * 0.5`), not after the overall last marker occurrence and
not at exactly the 50% point; otherwise the cut stays at the raw
offset.  The first produced chunk is the strip of that first window. -/
theorem C3_theorem (text : List Char) (cs ov : Int) (fuel : Nat)
    (r : List (List Char)) (hcs : 0 ≤ cs) (hlen : cs < (text.length : Int))
    (hr : chunk_textLoop fuel text cs ov 0 = some r)
    (hne : pyStrip (pySlice text 0 (chunkEnd text 0 cs)) ≠ []) :
    r.head? = some (pyStrip (pySlice text 0 (chunkEnd text 0 cs))) ∧
    (∀ ip, findPunctCut (pySlice text 0 cs) cs = some ip →
      chunkEnd text 0 cs = ip.1 + (ip.2.length : Int)) ∧
    (findPunctCut (pySlice text 0 cs) cs = none →
      chunkEnd text 0 cs = cs) := by
  constructor
  · cases fuel with
    | zero =>
      simp only [chunk_textLoop] at hr
      rw [if_pos (by omega)] at hr
      exact absurd hr (by simp)
    | succ f =>
      simp only [chunk_textLoop] at hr
      rw [if_pos (by omega : (0 : Int) < (text.length : Int))] at hr
      cases hrec : chunk_textLoop f text cs ov (chunkEnd text 0 cs - ov) with
      | none => rw [hrec] at hr; simp at hr
      | some rest =>
        rw [hrec] at hr
        simp at hr
        rw [if_neg hne] at hr
        rw [← hr]
        rfl
  · constructor
    · intro ip hf
      simp only [chunkEnd, zero_add]
      rw [if_pos (by omega : cs < (text.length : Int))]
      simp only [hf]
    · intro hf
      simp only [chunkEnd, zero_add]
      rw [if_pos (by omega : cs < (text.length : Int))]
      simp only [hf]

/-- C3 witness: the amended theorem on the counterexample text, where
the first qualifying marker in scan order is `". "` at position 6. -/
theorem C3_witness :
    (0 : Int) ≤ 10 ∧ (10 : Int) < ("abcdef. ! Z12".data.length : Int) ∧
    chunk_textLoop 20 "abcdef. ! Z12".data 10 2 0 =
      some ["abcdef.".data, ". ! Z12".data] ∧
    pyStrip (pySlice "abcdef. ! Z12".data 0
      (chunkEnd "abcdef. ! Z12".data 0 10)) ≠ [] ∧
    (["abcdef.".data, ". ! Z12".data] : List (List Char)).head? =
      some (pyStrip (pySlice "abcdef. ! Z12".data 0
        (chunkEnd "abcdef. ! Z12".data 0 10))) ∧
    findPunctCut (pySlice "abcdef. ! Z12".data 0 10) 10 =
      some (6, ". ".data) ∧
    chunkEnd "abcdef. ! Z12".data 0 10 =
      (6 : Int) + ((". ".data.length : Nat) : Int) := by
  refine ⟨by decide, by decide, by decide, by decide, ?_, by decide, ?_⟩
  · exact ( C3_theorem ("abcdef. ! Z12".data) 10 2 20
      ["abcdef.".data, ". ! Z12".data] (by decide) (by decide) (by decide)
      (by decide)).1
  · exact ( C3_theorem ("abcdef. ! Z12".data) 10 2 20
      ["abcdef.".data, ". ! Z12".data] (by decide) (by decide) (by decide)
      (by decide)).2.1 (6, ". ".data) (by decide)

